import Mathlib

/-!
# Verification of the AsianOptPI pricing kernel

Shallow embedding of the C++ computational core of the AsianOptPI package:
price-impact-adjusted lattice factor derivation (`utils.cpp`), exhaustive
binary path enumeration and the geometric Asian pricer
(`geometric_asian.cpp`), and the arithmetic Asian bounds estimator
(`arithmetic_bounds.cpp`).  Doubles are modelled as real numbers; `Rcpp::stop`
aborts are modelled by the `Except` monad with one error kind per distinct
failure condition in the source.
-/

open scoped Classical

namespace AsianOptPI

/-- Error kinds of the kernel.  Each constructor corresponds to one distinct
`Rcpp::stop` call site (or, for `DegenerateLattice`, the absent guard
discussed in the design notes). -/
inductive PricingError : Type
  | InvalidProbability
  | NonPositivePrice
  | EmptyInput
deriving DecidableEq, Repr

/-- Embedding of `struct EffectiveFactors` from `utils.h`. -/
structure EffectiveFactors : Type where
  u_tilde : ℝ
  d_tilde : ℝ
  p_eff : ℝ


/-- Embedding of `compute_effective_factors` from `utils.cpp`: adjusted up/down factors and
the implied risk-neutral probability; stops with an invalid-probability error
when `p_eff ∉ [0,1]`. -/
noncomputable def compute_effective_factors (r u d lambda v_u v_d : ℝ) :
    Except PricingError EffectiveFactors :=
  let u_tilde := u * Real.exp (lambda * v_u)
  let d_tilde := d * Real.exp (-(lambda * v_d))
  let p_eff := (r - d_tilde) / (u_tilde - d_tilde)
  if p_eff < 0 ∨ p_eff > 1 then
    Except.error PricingError.InvalidProbability
  else
    Except.ok ⟨u_tilde, d_tilde, p_eff⟩

/-- Embedding of `geometric_mean` from `utils.cpp`: stops on an empty vector, stops on any
non-positive element, and otherwise accumulates in log-space, returning
`exp((Σ log xᵢ) / size)`. -/
noncomputable def geometric_mean (prices : List ℝ) : Except PricingError ℝ :=
  if prices.isEmpty then
    Except.error PricingError.EmptyInput
  else if ∃ price ∈ prices, price ≤ 0 then
    Except.error PricingError.NonPositivePrice
  else
    Except.ok (Real.exp ((prices.map Real.log).sum / prices.length))

/-- Embedding of `arithmetic_mean` from `utils.cpp`: stops on an empty vector, otherwise
the plain average. -/
noncomputable def arithmetic_mean (prices : List ℝ) : Except PricingError ℝ :=
  if prices.isEmpty then
    Except.error PricingError.EmptyInput
  else
    Except.ok (prices.sum / prices.length)

/-- The loop of `generate_price_path` from `utils.cpp`: walks the move
sequence keeping the running counts `n_ups`/`n_downs` (a move counts as up
exactly when it equals `1`) and emits
`S0 * u_tilde^n_ups * d_tilde^n_downs` after each step. -/
noncomputable def generate_price_path_loop (S0 u_tilde d_tilde : ℝ) :
    ℕ → ℕ → List ℤ → List ℝ
  | _, _, [] => []
  | n_ups, n_downs, move :: rest =>
    let n_ups' := if move = 1 then n_ups + 1 else n_ups
    let n_downs' := if move = 1 then n_downs else n_downs + 1
    S0 * u_tilde ^ n_ups' * d_tilde ^ n_downs' ::
      generate_price_path_loop S0 u_tilde d_tilde n_ups' n_downs' rest

/-- Embedding of `generate_price_path` from `utils.cpp`: the `n+1`-element price
trajectory, starting at `S0`. -/
noncomputable def generate_price_path (S0 : ℝ) (path : List ℤ)
    (u_tilde d_tilde : ℝ) : List ℝ :=
  S0 :: generate_price_path_loop S0 u_tilde d_tilde 0 0 path

/-- Embedding of `generate_all_paths` from `geometric_asian.cpp` (together with its helper
`generate_all_paths_recursive`): depth-first enumeration of every binary move
sequence of length `n`, trying the up move (`1`) before the down move (`0`)
at each position. -/
def generate_all_paths : ℕ → List (List ℤ)
  | 0 => [[]]
  | n + 1 =>
    (generate_all_paths n).map (fun path => 1 :: path) ++
      (generate_all_paths n).map (fun path => 0 :: path)

/-- The factors record used by the geometric pricer.  Modelled from the spec:
the type `AdjustedFactors` consumed by `price_geometric_asian_cpp` is not
among the provided source files; design note §9 describes it as one of two
"structurally identical type definitions used respectively by the pricer and
the bounds estimator", so it duplicates `EffectiveFactors` field for field
(with the probability field named `p_adj`). -/
structure AdjustedFactors : Type where
  u_tilde : ℝ
  d_tilde : ℝ
  p_adj : ℝ


/-- Modelled from the spec: `compute_adjusted_factors` is called by
`price_geometric_asian_cpp` but its definition is not among the provided
source files.  Spec §4.1 states the same derivation is used for both the
exact-pricing path and the bounds path, and design note §9 records it as a
structural duplicate of `compute_effective_factors`; it is therefore embedded
with the identical body. -/
noncomputable def compute_adjusted_factors (r u d lambda v_u v_d : ℝ) :
    Except PricingError AdjustedFactors :=
  let u_tilde := u * Real.exp (lambda * v_u)
  let d_tilde := d * Real.exp (-(lambda * v_d))
  let p_adj := (r - d_tilde) / (u_tilde - d_tilde)
  if p_adj < 0 ∨ p_adj > 1 then
    Except.error PricingError.InvalidProbability
  else
    Except.ok ⟨u_tilde, d_tilde, p_adj⟩

/-- Embedding of `price_geometric_asian_cpp` from `geometric_asian.cpp`: enumerate all
`2^n` paths, accumulate `path_prob * payoff` over them, and discount once at
the end. -/
noncomputable def price_geometric_asian_cpp (S0 K r u d lambda v_u v_d : ℝ)
    (n : ℕ) : Except PricingError ℝ := do
  let factors ← compute_adjusted_factors r u d lambda v_u v_d
  let all_paths := generate_all_paths n
  let discount := r ^ (-(n : ℤ))
  let option_value ← all_paths.foldlM (fun option_value path => do
    let prices := generate_price_path S0 path factors.u_tilde factors.d_tilde
    let G ← geometric_mean prices
    let payoff := max 0 (G - K)
    let n_ups := path.count 1
    let path_prob := factors.p_adj ^ n_ups * (1 - factors.p_adj) ^ (n - n_ups)
    pure (option_value + path_prob * payoff)) 0
  pure (option_value * discount)

/-- The five-field result record of `arithmetic_asian_bounds_cpp`
(`Rcpp::List` with named components in the source). -/
structure BoundsResult : Type where
  lower_bound : ℝ
  upper_bound : ℝ
  rho_star : ℝ
  EQ_G : ℝ
  V0_G : ℝ


/-- Embedding of `arithmetic_asian_bounds_cpp` from `arithmetic_bounds.cpp`: one loop
accumulates both the raw geometric option value and the undiscounted expected
geometric average `EQ_G`; the lower bound is discounted after the loop, the
global spread parameter `rho_star` is computed from the terminal adjusted
factors, and the upper bound combines the three. -/
noncomputable def arithmetic_asian_bounds_cpp (S0 K r u d lambda v_u v_d : ℝ)
    (n : ℕ) : Except PricingError BoundsResult := do
  let factors ← compute_effective_factors r u d lambda v_u v_d
  let all_paths := generate_all_paths n
  let discount := r ^ (-(n : ℤ))
  let acc ← all_paths.foldlM (fun acc path => do
    let prices := generate_price_path S0 path factors.u_tilde factors.d_tilde
    let G ← geometric_mean prices
    let payoff := max 0 (G - K)
    let n_ups := path.count 1
    let path_prob := factors.p_eff ^ n_ups * (1 - factors.p_eff) ^ (n - n_ups)
    pure (acc.1 + path_prob * payoff, acc.2 + path_prob * G)) ((0 : ℝ), (0 : ℝ))
  let lower_bound := acc.1 * discount
  let EQ_G := acc.2
  let u_n := factors.u_tilde ^ n
  let d_n := factors.d_tilde ^ n
  let spread := (u_n - d_n) ^ 2 / (4 * u_n * d_n)
  let rho_star := Real.exp spread
  let upper_bound := lower_bound + discount * (rho_star - 1) * EQ_G
  pure ⟨lower_bound, upper_bound, rho_star, EQ_G, lower_bound⟩

/-! ### IEEE view of the probability derivation

The embeddings above model C++ doubles as real numbers, with Lean's total
division (`x / 0 = 0`).  That totalization is faithful wherever the divisor
`u_tilde - d_tilde` is non-zero, but in the degenerate regime
`u_tilde = d_tilde` the C++ double division yields `±inf` or `NaN`, and the
subsequent range check `p_eff < 0.0 || p_eff > 1.0` reacts to those special
values (`±inf` fails it, `NaN` passes it).  To state the degenerate-lattice
behaviour faithfully, `compute_effective_factors` is translated a second
time with the division-by-zero outcomes made explicit.  Special values can
only arise from this one division: the factor formulas themselves produce
finite values, and for equal finite doubles IEEE subtraction gives exactly
`+0.0`, with the sign and vanishing of `r - d_tilde` agreeing with the exact
difference. -/

/-- A double in the regime reached by the probability derivation: a finite
value, one of the two infinities produced by `x/0.0` with `x ≠ 0`, or the
`NaN` produced by `0.0/0.0`. -/
inductive IEEEDouble : Type
  | finite (x : ℝ)
  | pinf
  | minf
  | nan

/-- IEEE comparison `p < c` against a finite bound: `-inf` is below every
finite value, `+inf` is not, and every comparison on `NaN` is false. -/
def IEEEDouble.lt : IEEEDouble → ℝ → Prop
  | .finite x, c => x < c
  | .minf, _ => True
  | .pinf, _ => False
  | .nan, _ => False

/-- IEEE comparison `p > c` against a finite bound: `+inf` is above every
finite value, `-inf` is not, and every comparison on `NaN` is false. -/
def IEEEDouble.gt : IEEEDouble → ℝ → Prop
  | .finite x, c => c < x
  | .minf, _ => False
  | .pinf, _ => True
  | .nan, _ => False

/-- IEEE double division with a (finite) real numerator: division by zero
gives `±inf` by the sign of the numerator and `NaN` for `0/0`; otherwise the
finite quotient. -/
noncomputable def ieee_div (x y : ℝ) : IEEEDouble :=
  if y = 0 then
    if 0 < x then IEEEDouble.pinf
    else if x < 0 then IEEEDouble.minf
    else IEEEDouble.nan
  else IEEEDouble.finite (x / y)

/-- The same `compute_effective_factors` from `utils.cpp`, translated with
the IEEE division-by-zero outcomes kept explicit instead of totalized, so
that the behaviour at `u_tilde = d_tilde` (division by exact zero) can be
stated; away from that regime it agrees with `compute_effective_factors`
(see `ieee_agrees_off_degenerate`). -/
noncomputable def compute_effective_factors_ieee (r u d lambda v_u v_d : ℝ) :
    Except PricingError (ℝ × ℝ × IEEEDouble) :=
  let u_tilde := u * Real.exp (lambda * v_u)
  let d_tilde := d * Real.exp (-(lambda * v_d))
  let p_eff := ieee_div (r - d_tilde) (u_tilde - d_tilde)
  if p_eff.lt 0 ∨ p_eff.gt 1 then
    Except.error PricingError.InvalidProbability
  else
    Except.ok (u_tilde, d_tilde, p_eff)

/-! ## Basic monad reductions -/

@[simp] lemma ok_bind {α β : Type} (a : α) (k : α → Except PricingError β) :
    (Except.ok a >>= k) = k a := rfl

@[simp] lemma error_bind {α β : Type} (e : PricingError)
    (k : α → Except PricingError β) :
    ((Except.error e : Except PricingError α) >>= k) = Except.error e := rfl

@[simp] lemma pure_eq_ok {α : Type} (a : α) :
    (pure a : Except PricingError α) = Except.ok a := rfl

@[simp] lemma except_map_ok {α β : Type} (f : α → β) (a : α) :
    Except.map f (Except.ok a : Except PricingError α) = Except.ok (f a) := rfl

@[simp] lemma except_map_error {α β : Type} (f : α → β) (e : PricingError) :
    Except.map f (Except.error e : Except PricingError α) = Except.error e := rfl

/-! ## Factor derivation lemmas -/

/-- Unfolded form of `compute_effective_factors`. -/
lemma compute_effective_factors_eq (r u d lambda v_u v_d : ℝ) :
    compute_effective_factors r u d lambda v_u v_d =
      (if (r - d * Real.exp (-(lambda * v_d))) /
            (u * Real.exp (lambda * v_u) - d * Real.exp (-(lambda * v_d))) < 0 ∨
          (r - d * Real.exp (-(lambda * v_d))) /
            (u * Real.exp (lambda * v_u) - d * Real.exp (-(lambda * v_d))) > 1
        then Except.error PricingError.InvalidProbability
        else Except.ok ⟨u * Real.exp (lambda * v_u), d * Real.exp (-(lambda * v_d)),
          (r - d * Real.exp (-(lambda * v_d))) /
            (u * Real.exp (lambda * v_u) - d * Real.exp (-(lambda * v_d)))⟩) := rfl

/-- Unfolded form of `compute_adjusted_factors`. -/
lemma compute_adjusted_factors_eq (r u d lambda v_u v_d : ℝ) :
    compute_adjusted_factors r u d lambda v_u v_d =
      (if (r - d * Real.exp (-(lambda * v_d))) /
            (u * Real.exp (lambda * v_u) - d * Real.exp (-(lambda * v_d))) < 0 ∨
          (r - d * Real.exp (-(lambda * v_d))) /
            (u * Real.exp (lambda * v_u) - d * Real.exp (-(lambda * v_d))) > 1
        then Except.error PricingError.InvalidProbability
        else Except.ok ⟨u * Real.exp (lambda * v_u), d * Real.exp (-(lambda * v_d)),
          (r - d * Real.exp (-(lambda * v_d))) /
            (u * Real.exp (lambda * v_u) - d * Real.exp (-(lambda * v_d)))⟩) := rfl

/-- The two factor derivations agree field for field. -/
lemma adjusted_eq_effective_map (r u d lambda v_u v_d : ℝ) :
    compute_adjusted_factors r u d lambda v_u v_d =
      Except.map (fun f : EffectiveFactors => AdjustedFactors.mk f.u_tilde f.d_tilde f.p_eff)
        (compute_effective_factors r u d lambda v_u v_d) := by
  rw [compute_effective_factors_eq, compute_adjusted_factors_eq]
  split <;> rfl

/-- A successful effective-factor derivation pins down every field. -/
lemma effective_factors_fields {r u d lambda v_u v_d : ℝ} {f : EffectiveFactors}
    (h : compute_effective_factors r u d lambda v_u v_d = Except.ok f) :
    f = ⟨u * Real.exp (lambda * v_u), d * Real.exp (-(lambda * v_d)),
      (r - d * Real.exp (-(lambda * v_d))) /
        (u * Real.exp (lambda * v_u) - d * Real.exp (-(lambda * v_d)))⟩ := by
  rw [compute_effective_factors_eq] at h
  split at h
  · exact absurd h (by simp)
  · exact (Except.ok.inj h).symm

lemma effective_u_tilde_pos {r u d lambda v_u v_d : ℝ} {f : EffectiveFactors}
    (h : compute_effective_factors r u d lambda v_u v_d = Except.ok f)
    (hu : 0 < u) : 0 < f.u_tilde := by
  rw [effective_factors_fields h]
  exact mul_pos hu (Real.exp_pos _)

lemma effective_d_tilde_pos {r u d lambda v_u v_d : ℝ} {f : EffectiveFactors}
    (h : compute_effective_factors r u d lambda v_u v_d = Except.ok f)
    (hd : 0 < d) : 0 < f.d_tilde := by
  rw [effective_factors_fields h]
  exact mul_pos hd (Real.exp_pos _)

/-! ## Trajectory lemmas -/

lemma generate_price_path_loop_length (S0 u_t d_t : ℝ) :
    ∀ (path : List ℤ) (a b : ℕ),
      (generate_price_path_loop S0 u_t d_t a b path).length = path.length := by
  intro path
  induction path with
  | nil => intro a b; rfl
  | cons m rest ih =>
    intro a b
    simp only [generate_price_path_loop, List.length_cons, ih]

lemma generate_price_path_length (S0 : ℝ) (path : List ℤ) (u_t d_t : ℝ) :
    (generate_price_path S0 path u_t d_t).length = path.length + 1 := by
  simp [generate_price_path, generate_price_path_loop_length]

lemma generate_price_path_loop_pos {S0 u_t d_t : ℝ}
    (hS0 : 0 < S0) (hut : 0 < u_t) (hdt : 0 < d_t) :
    ∀ (path : List ℤ) (a b : ℕ),
      ∀ x ∈ generate_price_path_loop S0 u_t d_t a b path, 0 < x := by
  intro path
  induction path with
  | nil => intro a b x hx; simp [generate_price_path_loop] at hx
  | cons m rest ih =>
    intro a b x hx
    simp only [generate_price_path_loop, List.mem_cons] at hx
    rcases hx with h | h
    · subst h; positivity
    · exact ih _ _ x h

lemma generate_price_path_pos {S0 u_t d_t : ℝ} (path : List ℤ)
    (hS0 : 0 < S0) (hut : 0 < u_t) (hdt : 0 < d_t) :
    ∀ x ∈ generate_price_path S0 path u_t d_t, 0 < x := by
  intro x hx
  simp only [generate_price_path, List.mem_cons] at hx
  rcases hx with h | h
  · subst h; exact hS0
  · exact generate_price_path_loop_pos hS0 hut hdt path 0 0 x h

/-! ## Geometric mean lemmas -/

lemma geometric_mean_pos_ok {prices : List ℝ} (hne : prices ≠ [])
    (hpos : ∀ x ∈ prices, 0 < x) :
    geometric_mean prices =
      Except.ok (Real.exp ((prices.map Real.log).sum / prices.length)) := by
  have h1 : ¬ prices.isEmpty = true := by
    simpa [List.isEmpty_iff] using hne
  have h2 : ¬ ∃ price ∈ prices, price ≤ 0 := by
    rintro ⟨x, hx, hx0⟩
    exact absurd (hpos x hx) (not_lt.2 hx0)
  simp [geometric_mean, h1, h2]

/-- The value returned by a successful `geometric_mean` on a trajectory. -/
noncomputable def gmVal (S0 u_t d_t : ℝ) (path : List ℤ) : ℝ :=
  Real.exp (((generate_price_path S0 path u_t d_t).map Real.log).sum /
    (generate_price_path S0 path u_t d_t).length)

lemma geometric_mean_path_ok {S0 u_t d_t : ℝ}
    (hS0 : 0 < S0) (hut : 0 < u_t) (hdt : 0 < d_t) (path : List ℤ) :
    geometric_mean (generate_price_path S0 path u_t d_t) =
      Except.ok (gmVal S0 u_t d_t path) :=
  geometric_mean_pos_ok (by simp [generate_price_path])
    (generate_price_path_pos path hS0 hut hdt)

lemma log_sum_eq_log_prod : ∀ {l : List ℝ}, (∀ x ∈ l, 0 < x) →
    (l.map Real.log).sum = Real.log l.prod := by
  intro l
  induction l with
  | nil => intro _; simp
  | cons x rest ih =>
    intro h
    have hx : 0 < x := h x (List.mem_cons_self x rest)
    have hrest : ∀ y ∈ rest, 0 < y := fun y hy => h y (List.mem_cons_of_mem x hy)
    have hprod : 0 < rest.prod := List.prod_pos hrest
    simp only [List.map_cons, List.sum_cons, List.prod_cons, ih hrest,
      Real.log_mul (ne_of_gt hx) (ne_of_gt hprod)]

/-- Log-space accumulation agrees with the direct product-root formula on
positive inputs. -/
lemma exp_mean_log_eq_rpow {l : List ℝ} (hpos : ∀ x ∈ l, 0 < x) :
    Real.exp ((l.map Real.log).sum / l.length) =
      l.prod ^ ((l.length : ℝ)⁻¹) := by
  have hprod : 0 < l.prod := List.prod_pos hpos
  rw [Real.rpow_def_of_pos hprod, log_sum_eq_log_prod hpos, div_eq_mul_inv]

lemma gmVal_eq_rpow {S0 u_t d_t : ℝ}
    (hS0 : 0 < S0) (hut : 0 < u_t) (hdt : 0 < d_t) (path : List ℤ) :
    gmVal S0 u_t d_t path =
      (generate_price_path S0 path u_t d_t).prod ^
        ((path.length : ℝ) + 1)⁻¹ := by
  rw [gmVal, exp_mean_log_eq_rpow (generate_price_path_pos path hS0 hut hdt),
    generate_price_path_length]
  norm_num

/-! ## Fold lemmas for the accumulation loops -/

/-- The pricer's loop, on positive data, reduces to a plain sum. -/
lemma geo_fold {S0 u_t d_t : ℝ} (K p : ℝ) (n : ℕ)
    (hS0 : 0 < S0) (hut : 0 < u_t) (hdt : 0 < d_t) :
    ∀ (l : List (List ℤ)) (a : ℝ),
      (List.foldlM (fun option_value path => do
          let G ← geometric_mean (generate_price_path S0 path u_t d_t)
          pure (option_value +
            p ^ path.count 1 * (1 - p) ^ (n - path.count 1) * max 0 (G - K))) a l
        : Except PricingError ℝ) =
      Except.ok (a + (l.map (fun path =>
        p ^ path.count 1 * (1 - p) ^ (n - path.count 1) *
          max 0 (gmVal S0 u_t d_t path - K))).sum) := by
  intro l
  induction l with
  | nil => intro a; simp
  | cons x rest ih =>
    intro a
    rw [List.foldlM_cons, geometric_mean_path_ok hS0 hut hdt x]
    simp only [ok_bind, pure_bind]
    rw [ih, List.map_cons, List.sum_cons, add_assoc]

/-- The bounds estimator's loop, on positive data, reduces to a pair of
plain sums. -/
lemma bounds_fold {S0 u_t d_t : ℝ} (K p : ℝ) (n : ℕ)
    (hS0 : 0 < S0) (hut : 0 < u_t) (hdt : 0 < d_t) :
    ∀ (l : List (List ℤ)) (a b : ℝ),
      (List.foldlM (fun acc path => do
          let G ← geometric_mean (generate_price_path S0 path u_t d_t)
          pure (acc.1 +
              p ^ path.count 1 * (1 - p) ^ (n - path.count 1) * max 0 (G - K),
            acc.2 + p ^ path.count 1 * (1 - p) ^ (n - path.count 1) * G))
          ((a : ℝ), (b : ℝ)) l : Except PricingError (ℝ × ℝ)) =
      Except.ok (a + (l.map (fun path =>
          p ^ path.count 1 * (1 - p) ^ (n - path.count 1) *
            max 0 (gmVal S0 u_t d_t path - K))).sum,
        b + (l.map (fun path =>
          p ^ path.count 1 * (1 - p) ^ (n - path.count 1) *
            gmVal S0 u_t d_t path)).sum) := by
  intro l
  induction l with
  | nil => intro a b; simp
  | cons x rest ih =>
    intro a b
    rw [List.foldlM_cons, geometric_mean_path_ok hS0 hut hdt x]
    simp only [ok_bind, pure_bind]
    rw [ih]
    simp only [List.map_cons, List.sum_cons, add_assoc]

/-- Projecting the first accumulator of the bounds loop yields the pricer's
loop, with no positivity assumptions: both loops fail identically. -/
lemma bounds_fold_fst (S0 K p u_t d_t : ℝ) (n : ℕ) :
    ∀ (l : List (List ℤ)) (a b : ℝ),
      Except.map Prod.fst
        (List.foldlM (fun acc path => do
            let G ← geometric_mean (generate_price_path S0 path u_t d_t)
            pure (acc.1 +
                p ^ path.count 1 * (1 - p) ^ (n - path.count 1) * max 0 (G - K),
              acc.2 + p ^ path.count 1 * (1 - p) ^ (n - path.count 1) * G))
          ((a : ℝ), (b : ℝ)) l : Except PricingError (ℝ × ℝ)) =
      (List.foldlM (fun option_value path => do
          let G ← geometric_mean (generate_price_path S0 path u_t d_t)
          pure (option_value +
            p ^ path.count 1 * (1 - p) ^ (n - path.count 1) * max 0 (G - K))) a l
        : Except PricingError ℝ) := by
  intro l
  induction l with
  | nil => intro a b; rfl
  | cons x rest ih =>
    intro a b
    rw [List.foldlM_cons, List.foldlM_cons]
    cases hgx : geometric_mean (generate_price_path S0 x u_t d_t) with
    | error e => simp
    | ok v =>
      simp only [ok_bind, pure_bind]
      exact ih _ _

/-! ## Path enumeration lemmas -/

lemma generate_all_paths_length (n : ℕ) :
    (generate_all_paths n).length = 2 ^ n := by
  induction n with
  | zero => rfl
  | succ n ih =>
    simp only [generate_all_paths, List.length_append, List.length_map, ih,
      pow_succ]
    ring

lemma generate_all_paths_mem_length : ∀ {n : ℕ} {path : List ℤ},
    path ∈ generate_all_paths n → path.length = n := by
  intro n
  induction n with
  | zero =>
    intro path h
    simp only [generate_all_paths, List.mem_singleton] at h
    simp [h]
  | succ n ih =>
    intro path h
    simp only [generate_all_paths, List.mem_append, List.mem_map] at h
    rcases h with ⟨q, hq, rfl⟩ | ⟨q, hq, rfl⟩ <;> simp [ih hq]

lemma generate_all_paths_mem_binary : ∀ {n : ℕ} {path : List ℤ},
    path ∈ generate_all_paths n → ∀ m ∈ path, m = 0 ∨ m = 1 := by
  intro n
  induction n with
  | zero =>
    intro path h
    simp only [generate_all_paths, List.mem_singleton] at h
    simp [h]
  | succ n ih =>
    intro path h m hm
    simp only [generate_all_paths, List.mem_append, List.mem_map] at h
    rcases h with ⟨q, hq, rfl⟩ | ⟨q, hq, rfl⟩ <;>
      rcases List.mem_cons.1 hm with h1 | h1
    · right; exact h1
    · exact ih hq m h1
    · left; exact h1
    · exact ih hq m h1

lemma generate_all_paths_nodup (n : ℕ) : (generate_all_paths n).Nodup := by
  induction n with
  | zero => simp [generate_all_paths]
  | succ n ih =>
    simp only [generate_all_paths]
    apply List.Nodup.append
    · exact ih.map (fun a b h => by simpa using h)
    · exact ih.map (fun a b h => by simpa using h)
    · intro x hx1 hx2
      simp only [List.mem_map] at hx1 hx2
      obtain ⟨q1, _, h1⟩ := hx1
      obtain ⟨q2, _, h2⟩ := hx2
      rw [← h1] at h2
      exact absurd (List.head_eq_of_cons_eq h2) (by norm_num)

lemma generate_all_paths_complete : ∀ {n : ℕ} {path : List ℤ},
    path.length = n → (∀ m ∈ path, m = 0 ∨ m = 1) →
      path ∈ generate_all_paths n := by
  intro n
  induction n with
  | zero =>
    intro path hlen _
    simp [List.length_eq_zero.1 hlen, generate_all_paths]
  | succ n ih =>
    intro path hlen hbin
    cases path with
    | nil => simp at hlen
    | cons m rest =>
      have hrest : rest ∈ generate_all_paths n :=
        ih (by simpa using hlen) (fun x hx => hbin x (List.mem_cons_of_mem m hx))
      rcases hbin m (List.mem_cons_self m rest) with h0 | h1
      · subst h0
        simp only [generate_all_paths, List.mem_append, List.mem_map]
        right
        exact ⟨rest, hrest, rfl⟩
      · subst h1
        simp only [generate_all_paths, List.mem_append, List.mem_map]
        left
        exact ⟨rest, hrest, rfl⟩

/-! ## Closed form of the trajectory entries -/

lemma generate_price_path_loop_getD (S0 u_t d_t : ℝ) :
    ∀ (path : List ℤ) (a b i : ℕ), i < path.length →
      (generate_price_path_loop S0 u_t d_t a b path).getD i 0 =
        S0 * u_t ^ (a + (path.take (i + 1)).count 1) *
          d_t ^ (b + ((i + 1) - (path.take (i + 1)).count 1)) := by
  intro path
  induction path with
  | nil => intro a b i h; simp at h
  | cons m rest ih =>
    intro a b i h
    cases i with
    | zero =>
      by_cases hm : m = 1
      · subst hm
        simp [generate_price_path_loop, List.count_cons]
      · simp [generate_price_path_loop, hm, List.count_cons]
    | succ i =>
      have hi : i < rest.length := by simpa using h
      have hcnt : (rest.take (i + 1)).count 1 ≤ i + 1 := by
        calc (rest.take (i + 1)).count 1
            ≤ (rest.take (i + 1)).length := List.count_le_length _ _
          _ ≤ i + 1 := by simp [List.length_take]
      by_cases hm : m = 1
      · subst hm
        have hstep : generate_price_path_loop S0 u_t d_t a b (1 :: rest) =
            S0 * u_t ^ (a + 1) * d_t ^ b ::
              generate_price_path_loop S0 u_t d_t (a + 1) b rest := by
          simp [generate_price_path_loop]
        rw [hstep, List.getD_cons_succ, ih (a + 1) b i hi,
          List.take_succ_cons, List.count_cons]
        set cnt := (rest.take (i + 1)).count 1 with hc
        have e1 : a + (cnt + if (1 : ℤ) == 1 then 1 else 0) = a + 1 + cnt := by
          simp; omega
        have e2 : b + (i + 1 + 1 - (cnt + if (1 : ℤ) == 1 then 1 else 0)) =
            b + (i + 1 - cnt) := by
          simp
        rw [e1, e2]
      · have hstep : generate_price_path_loop S0 u_t d_t a b (m :: rest) =
            S0 * u_t ^ a * d_t ^ (b + 1) ::
              generate_price_path_loop S0 u_t d_t a (b + 1) rest := by
          simp [generate_price_path_loop, hm]
        rw [hstep, List.getD_cons_succ, ih a (b + 1) i hi,
          List.take_succ_cons, List.count_cons]
        set cnt := (rest.take (i + 1)).count 1 with hc
        have hmb : ((m == 1) : Bool) = false := by simpa using hm
        rw [hmb]
        have e1 : a + (cnt + if false = true then 1 else 0) = a + cnt := by
          simp
        have e2 : b + 1 + (i + 1 - cnt) =
            b + (i + 1 + 1 - (cnt + if false = true then 1 else 0)) := by
          simp; omega
        rw [e1, ← e2]

/-- On a binary list the counts of zeros and ones exhaust the length. -/
lemma binary_counts : ∀ {l : List ℤ}, (∀ m ∈ l, m = 0 ∨ m = 1) →
    l.count 0 + l.count 1 = l.length := by
  intro l
  induction l with
  | nil => intro _; rfl
  | cons m rest ih =>
    intro h
    have hrest := ih (fun x hx => h x (List.mem_cons_of_mem m hx))
    rcases h m (List.mem_cons_self m rest) with h0 | h1
    · subst h0; simp [List.count_cons]; omega
    · subst h1; simp [List.count_cons]; omega

/-! ## Remaining helpers -/

lemma adjusted_factors_fields {r u d lambda v_u v_d : ℝ} {f : AdjustedFactors}
    (h : compute_adjusted_factors r u d lambda v_u v_d = Except.ok f) :
    f = ⟨u * Real.exp (lambda * v_u), d * Real.exp (-(lambda * v_d)),
      (r - d * Real.exp (-(lambda * v_d))) /
        (u * Real.exp (lambda * v_u) - d * Real.exp (-(lambda * v_d)))⟩ := by
  rw [compute_adjusted_factors_eq] at h
  split at h
  · exact absurd h (by simp)
  · exact (Except.ok.inj h).symm

lemma adjusted_u_tilde_pos {r u d lambda v_u v_d : ℝ} {f : AdjustedFactors}
    (h : compute_adjusted_factors r u d lambda v_u v_d = Except.ok f)
    (hu : 0 < u) : 0 < f.u_tilde := by
  rw [adjusted_factors_fields h]
  exact mul_pos hu (Real.exp_pos _)

lemma adjusted_d_tilde_pos {r u d lambda v_u v_d : ℝ} {f : AdjustedFactors}
    (h : compute_adjusted_factors r u d lambda v_u v_d = Except.ok f)
    (hd : 0 < d) : 0 < f.d_tilde := by
  rw [adjusted_factors_fields h]
  exact mul_pos hd (Real.exp_pos _)

/-- Splitting a successful run of the two entry points' common shape: a
monadic loop result fed into a pure continuation. -/
lemma bind_ok_pair (m : Except PricingError (ℝ × ℝ))
    (k : ℝ × ℝ → BoundsResult) (res : BoundsResult) (kp : ℝ → ℝ) (price : ℝ)
    (hb : (m >>= fun acc => pure (k acc)) = Except.ok res)
    (hp : ((Except.map Prod.fst m) >>= fun ov => pure (kp ov)) = Except.ok price) :
    ∃ acc, m = Except.ok acc ∧ res = k acc ∧ price = kp acc.1 := by
  cases m with
  | error e => simp at hb
  | ok acc =>
    refine ⟨acc, rfl, ?_, ?_⟩
    · simpa using hb.symm
    · simpa using hp.symm

/-! ## Claim C4 -/

/-- C4: the function `compute_effective_factors` returns
`u_tilde = u·exp(lambda·v_u)`, `d_tilde = d·exp(-lambda·v_d)` and
`p = (r - d_tilde)/(u_tilde - d_tilde)`, and fails with `InvalidProbability`
exactly when the derived `p` lies outside `[0,1]` (returning no result in
that case). -/
theorem compute_effective_factors_spec (r u d lambda v_u v_d : ℝ)
    (hne : u * Real.exp (lambda * v_u) ≠ d * Real.exp (-(lambda * v_d))) :
    (compute_effective_factors r u d lambda v_u v_d =
        Except.error PricingError.InvalidProbability ↔
      (r - d * Real.exp (-(lambda * v_d))) /
          (u * Real.exp (lambda * v_u) - d * Real.exp (-(lambda * v_d))) ∉
        Set.Icc (0 : ℝ) 1) ∧
    ((r - d * Real.exp (-(lambda * v_d))) /
          (u * Real.exp (lambda * v_u) - d * Real.exp (-(lambda * v_d))) ∈
        Set.Icc (0 : ℝ) 1 →
      compute_effective_factors r u d lambda v_u v_d =
        Except.ok ⟨u * Real.exp (lambda * v_u), d * Real.exp (-(lambda * v_d)),
          (r - d * Real.exp (-(lambda * v_d))) /
            (u * Real.exp (lambda * v_u) - d * Real.exp (-(lambda * v_d)))⟩) := by
  rw [compute_effective_factors_eq]
  set q := (r - d * Real.exp (-(lambda * v_d))) /
    (u * Real.exp (lambda * v_u) - d * Real.exp (-(lambda * v_d))) with hq
  by_cases hp : q < 0 ∨ q > 1
  · rw [if_pos hp]
    have hnotin : q ∉ Set.Icc (0 : ℝ) 1 := by
      rw [Set.mem_Icc]
      rcases hp with h | h
      · exact fun hc => absurd hc.1 (not_le.2 h)
      · exact fun hc => absurd hc.2 (not_le.2 h)
    exact ⟨iff_of_true rfl hnotin, fun hin => absurd hin hnotin⟩
  · rw [if_neg hp]
    push_neg at hp
    have hin : q ∈ Set.Icc (0 : ℝ) 1 := Set.mem_Icc.2 hp
    exact ⟨iff_of_false (by simp) (fun hc => hc hin), fun _ => rfl⟩

theorem compute_effective_factors_spec_witness :
    compute_effective_factors 1 2 (1/2) 0 0 0 =
      Except.ok ⟨2 * Real.exp (0 * 0), 1/2 * Real.exp (-(0 * 0)),
        (1 - 1/2 * Real.exp (-(0 * 0))) /
          (2 * Real.exp (0 * 0) - 1/2 * Real.exp (-(0 * 0)))⟩ :=
  (compute_effective_factors_spec 1 2 (1/2) 0 0 0
      (by norm_num [Real.exp_zero])).2
    (by norm_num [Real.exp_zero, Set.mem_Icc])

/-! ## Claim C5 -/

/-- C5: the enumerator `generate_all_paths n` produces exactly `2^n` move sequences, each
of length `n`, pairwise distinct and covering every binary combination; as a
pure function of `n` its order is deterministic. -/
theorem generate_all_paths_spec (n : ℕ) :
    (generate_all_paths n).length = 2 ^ n ∧
    (∀ path ∈ generate_all_paths n,
      path.length = n ∧ ∀ m ∈ path, m = 0 ∨ m = 1) ∧
    (generate_all_paths n).Nodup ∧
    ∀ path : List ℤ, path.length = n → (∀ m ∈ path, m = 0 ∨ m = 1) →
      path ∈ generate_all_paths n :=
  ⟨generate_all_paths_length n,
    fun _ h => ⟨generate_all_paths_mem_length h, generate_all_paths_mem_binary h⟩,
    generate_all_paths_nodup n,
    fun _ hl hb => generate_all_paths_complete hl hb⟩

theorem generate_all_paths_spec_witness : [0, 1] ∈ generate_all_paths 2 :=
  (generate_all_paths_spec 2).2.2.2 [0, 1] rfl (by decide)

/-! ## Claim C6 -/

/-- C6: for positive `S0` and positive factors, the trajectory of a binary
move sequence has `n+1` entries, starts at `S0`, and its `i`-th entry is
`S0 · u_tilde^(ups among the first i moves) · d_tilde^(downs among the first
i moves)`. -/
theorem generate_price_path_spec (S0 u_t d_t : ℝ) (path : List ℤ)
    (hS0 : 0 < S0) (hut : 0 < u_t) (hdt : 0 < d_t)
    (hbin : ∀ m ∈ path, m = 0 ∨ m = 1) :
    (generate_price_path S0 path u_t d_t).length = path.length + 1 ∧
    (generate_price_path S0 path u_t d_t).getD 0 0 = S0 ∧
    ∀ i, 1 ≤ i → i ≤ path.length →
      (generate_price_path S0 path u_t d_t).getD i 0 =
        S0 * u_t ^ ((path.take i).count 1) * d_t ^ ((path.take i).count 0) := by
  refine ⟨generate_price_path_length S0 path u_t d_t, rfl, ?_⟩
  intro i h1 h2
  obtain ⟨j, rfl⟩ : ∃ j, i = j + 1 := ⟨i - 1, by omega⟩
  rw [generate_price_path, List.getD_cons_succ,
    generate_price_path_loop_getD S0 u_t d_t path 0 0 j (by omega)]
  have htake_len : (path.take (j + 1)).length = j + 1 := by
    rw [List.length_take]; omega
  have hc := @binary_counts (path.take (j + 1))
    (fun m hm => hbin m (List.mem_of_mem_take hm))
  rw [htake_len] at hc
  have e1 : 0 + (path.take (j + 1)).count 1 = (path.take (j + 1)).count 1 := by
    omega
  have e2 : 0 + ((j + 1) - (path.take (j + 1)).count 1) =
      (path.take (j + 1)).count 0 := by omega
  rw [e1, e2]

theorem generate_price_path_spec_witness :
    (generate_price_path 1 [(1 : ℤ), 0] 2 (1/2)).length = 3 :=
  (generate_price_path_spec 1 2 (1/2) [(1 : ℤ), 0]
    (by norm_num) (by norm_num) (by norm_num) (by decide)).1

/-! ## Claim C7 -/

/-- C7: the function `geometric_mean` fails with `NonPositivePrice` whenever some input
element is `≤ 0`; on non-empty all-positive input it returns the log-space
accumulation `exp(mean(log xᵢ))`, which equals the direct product-root
formula. -/
theorem geometric_mean_spec (prices : List ℝ) :
    ((∃ x ∈ prices, x ≤ 0) →
      geometric_mean prices = Except.error PricingError.NonPositivePrice) ∧
    (prices ≠ [] → (∀ x ∈ prices, 0 < x) →
      geometric_mean prices =
          Except.ok (Real.exp ((prices.map Real.log).sum / prices.length)) ∧
        Real.exp ((prices.map Real.log).sum / prices.length) =
          prices.prod ^ ((prices.length : ℝ)⁻¹)) := by
  constructor
  · rintro ⟨x, hx, hx0⟩
    have h1 : ¬ prices.isEmpty = true := by
      simp only [List.isEmpty_iff]
      exact List.ne_nil_of_mem hx
    simp only [geometric_mean]
    rw [if_neg h1, if_pos ⟨x, hx, hx0⟩]
  · intro hne hpos
    exact ⟨geometric_mean_pos_ok hne hpos, exp_mean_log_eq_rpow hpos⟩

theorem geometric_mean_spec_witness :
    geometric_mean [(-1 : ℝ)] = Except.error PricingError.NonPositivePrice :=
  (geometric_mean_spec [(-1 : ℝ)]).1 ⟨-1, by simp, by norm_num⟩

/-! ## Claim C9 -/

/-- Unfolded form of `compute_effective_factors_ieee`. -/
lemma compute_effective_factors_ieee_eq (r u d lambda v_u v_d : ℝ) :
    compute_effective_factors_ieee r u d lambda v_u v_d =
      (if (ieee_div (r - d * Real.exp (-(lambda * v_d)))
            (u * Real.exp (lambda * v_u) -
              d * Real.exp (-(lambda * v_d)))).lt 0 ∨
          (ieee_div (r - d * Real.exp (-(lambda * v_d)))
            (u * Real.exp (lambda * v_u) -
              d * Real.exp (-(lambda * v_d)))).gt 1
        then Except.error PricingError.InvalidProbability
        else Except.ok (u * Real.exp (lambda * v_u),
          d * Real.exp (-(lambda * v_d)),
          ieee_div (r - d * Real.exp (-(lambda * v_d)))
            (u * Real.exp (lambda * v_u) -
              d * Real.exp (-(lambda * v_d))))) := rfl

/-- Away from the degenerate divisor the IEEE translation agrees with the
total-division embedding used by the other claims: the quotient is finite
and the IEEE comparisons coincide with the real ones. -/
lemma ieee_agrees_off_degenerate (r u d lambda v_u v_d : ℝ)
    (hne : u * Real.exp (lambda * v_u) ≠ d * Real.exp (-(lambda * v_d))) :
    compute_effective_factors_ieee r u d lambda v_u v_d =
      Except.map (fun f : EffectiveFactors =>
          (f.u_tilde, f.d_tilde, IEEEDouble.finite f.p_eff))
        (compute_effective_factors r u d lambda v_u v_d) := by
  have hsub : u * Real.exp (lambda * v_u) -
      d * Real.exp (-(lambda * v_d)) ≠ 0 := sub_ne_zero.mpr hne
  rw [compute_effective_factors_ieee_eq, compute_effective_factors_eq]
  rw [show ieee_div (r - d * Real.exp (-(lambda * v_d)))
      (u * Real.exp (lambda * v_u) - d * Real.exp (-(lambda * v_d))) =
      IEEEDouble.finite ((r - d * Real.exp (-(lambda * v_d))) /
        (u * Real.exp (lambda * v_u) - d * Real.exp (-(lambda * v_d)))) from by
    simp [ieee_div, hsub]]
  simp only [IEEEDouble.lt, IEEEDouble.gt]
  by_cases hc : (r - d * Real.exp (-(lambda * v_d))) /
        (u * Real.exp (lambda * v_u) - d * Real.exp (-(lambda * v_d))) < 0 ∨
      (r - d * Real.exp (-(lambda * v_d))) /
        (u * Real.exp (lambda * v_u) - d * Real.exp (-(lambda * v_d))) > 1
  · rw [if_pos hc, if_pos hc]
    rfl
  · rw [if_neg hc, if_neg hc]
    rfl

/-- Counterexample to C9 as stated: at the degenerate input
`r = 2, u = d = 1, lambda = 0` the adjusted factors coincide, yet the
derivation does not return a division-by-zero result — the IEEE quotient
`(r - d_tilde)/0 = +inf` fails the `[0,1]` check and the computation stops
with the generic `InvalidProbability` error. -/
theorem degenerate_lattice_stops_counterexample :
    ((1 : ℝ) * Real.exp (0 * 0) = 1 * Real.exp (-(0 * 0))) ∧
    compute_effective_factors_ieee 2 1 1 0 0 0 =
      Except.error PricingError.InvalidProbability := by
  constructor
  · norm_num
  · rw [compute_effective_factors_ieee_eq]
    norm_num [Real.exp_zero, ieee_div, IEEEDouble.lt, IEEEDouble.gt]

/-- C9 (amended): when the adjusted factors coincide, the probability
derivation divides by zero and never reports a dedicated
`DegenerateLattice` error — no such error kind exists.  Under IEEE
semantics the division-by-zero quotient is `NaN` exactly when
`r = d_tilde`, in which case it silently passes the `p ∉ [0,1]` check and a
`NaN` probability is returned; when `r ≠ d_tilde` the quotient is `±inf`,
the check fails, and the computation stops with the generic
`InvalidProbability` instead of a dedicated error. -/
theorem degenerate_lattice_ieee (r u d lambda v_u v_d : ℝ)
    (heq : u * Real.exp (lambda * v_u) = d * Real.exp (-(lambda * v_d))) :
    (r = d * Real.exp (-(lambda * v_d)) →
      compute_effective_factors_ieee r u d lambda v_u v_d =
        Except.ok (u * Real.exp (lambda * v_u),
          d * Real.exp (-(lambda * v_d)), IEEEDouble.nan)) ∧
    (r ≠ d * Real.exp (-(lambda * v_d)) →
      compute_effective_factors_ieee r u d lambda v_u v_d =
        Except.error PricingError.InvalidProbability) ∧
    ∀ e : PricingError,
      compute_effective_factors_ieee r u d lambda v_u v_d =
          Except.error e →
        e = PricingError.InvalidProbability := by
  have hsub : u * Real.exp (lambda * v_u) -
      d * Real.exp (-(lambda * v_d)) = 0 := sub_eq_zero_of_eq heq
  simp only [compute_effective_factors_ieee_eq, hsub]
  refine ⟨?_, ?_, ?_⟩
  · intro hr
    rw [hr, sub_self]
    simp [ieee_div, IEEEDouble.lt, IEEEDouble.gt]
  · intro hr
    rcases (sub_ne_zero.mpr hr).lt_or_lt with hneg | hpos
    · simp [ieee_div, hneg, hneg.not_lt, IEEEDouble.lt, IEEEDouble.gt]
    · simp [ieee_div, hpos, hpos.not_lt, IEEEDouble.lt, IEEEDouble.gt]
  · intro e he
    split at he
    · exact (Except.error.inj he).symm
    · exact absurd he (by simp)

theorem degenerate_lattice_ieee_witness :
    compute_effective_factors_ieee 1 1 1 0 0 0 =
      Except.ok (1 * Real.exp (0 * 0), 1 * Real.exp (-(0 * 0)),
        IEEEDouble.nan) :=
  (degenerate_lattice_ieee 1 1 1 0 0 0 (by norm_num)).1
    (by norm_num [Real.exp_zero])

/-! ## Claim C10 -/

/-- C10: both statistics functions reject the empty sequence with the
empty-input error. -/
theorem means_reject_empty :
    geometric_mean [] = Except.error PricingError.EmptyInput ∧
    arithmetic_mean [] = Except.error PricingError.EmptyInput :=
  ⟨rfl, rfl⟩

/-! ## Claim C1 -/

/-- C1: on every valid input on which factor derivation succeeds, the
geometric pricer returns `r^(-n)` times the sum over all `2^n` enumerated
move sequences of `p^(#ups)·(1-p)^(#downs)·max(0, G-K)`, with `G` the
geometric mean (product-root) of the `n+1`-element trajectory. -/
theorem price_geometric_asian_formula (S0 K r u d lambda v_u v_d : ℝ) (n : ℕ)
    (factors : AdjustedFactors)
    (hS0 : 0 < S0) (hK : 0 < K) (hr : 0 < r) (hd : 0 < d) (hdu : d < u)
    (hlam : 0 ≤ lambda) (hvu : 0 ≤ v_u) (hvd : 0 ≤ v_d)
    (hfac : compute_adjusted_factors r u d lambda v_u v_d = Except.ok factors) :
    price_geometric_asian_cpp S0 K r u d lambda v_u v_d n =
      Except.ok (r ^ (-(n : ℤ)) * ((generate_all_paths n).map (fun path =>
        factors.p_adj ^ path.count 1 *
          (1 - factors.p_adj) ^ (n - path.count 1) *
          max 0 ((generate_price_path S0 path factors.u_tilde
            factors.d_tilde).prod ^ ((n : ℝ) + 1)⁻¹ - K))).sum) := by
  have hu : 0 < u := hd.trans hdu
  have hut : 0 < factors.u_tilde := adjusted_u_tilde_pos hfac hu
  have hdt : 0 < factors.d_tilde := adjusted_d_tilde_pos hfac hd
  simp only [price_geometric_asian_cpp, hfac, ok_bind]
  rw [geo_fold K factors.p_adj n hS0 hut hdt (generate_all_paths n) 0]
  simp only [ok_bind, pure_eq_ok, zero_add]
  refine congrArg Except.ok ?_
  rw [mul_comm]
  refine congrArg (fun s => r ^ (-(n : ℤ)) * s) ?_
  refine congrArg List.sum ?_
  refine List.map_congr_left (fun path hpath => ?_)
  rw [gmVal_eq_rpow hS0 hut hdt, generate_all_paths_mem_length hpath]

theorem price_geometric_asian_formula_witness :
    price_geometric_asian_cpp 1 1 1 2 (1/2) 0 0 0 0 =
      Except.ok ((1 : ℝ) ^ (-((0 : ℕ) : ℤ)) * ((generate_all_paths 0).map
        (fun path =>
          (1/3 : ℝ) ^ path.count 1 * (1 - (1/3 : ℝ)) ^ (0 - path.count 1) *
            max 0 ((generate_price_path 1 path 2 (1/2)).prod ^
              (((0 : ℕ) : ℝ) + 1)⁻¹ - 1))).sum) :=
  price_geometric_asian_formula 1 1 1 2 (1/2) 0 0 0 0 ⟨2, 1/2, 1/3⟩
    (by norm_num) (by norm_num) (by norm_num) (by norm_num) (by norm_num)
    le_rfl le_rfl le_rfl
    (by rw [compute_adjusted_factors_eq]; norm_num [Real.exp_zero])

/-! ## Claim C2 -/

/-- C2: the bounds estimator computes `rho_star` from the terminal adjusted
factors only, accumulates the undiscounted `EQ_G = Σ probability·G` inside
the loop, and returns
`upper_bound = lower_bound + discount·(rho_star - 1)·EQ_G`, discounting
`EQ_G` only at this final combination step. -/
theorem arithmetic_asian_bounds_spec (S0 K r u d lambda v_u v_d : ℝ) (n : ℕ)
    (factors : EffectiveFactors)
    (hS0 : 0 < S0) (hK : 0 < K) (hr : 0 < r) (hd : 0 < d) (hdu : d < u)
    (hlam : 0 ≤ lambda) (hvu : 0 ≤ v_u) (hvd : 0 ≤ v_d)
    (hfac : compute_effective_factors r u d lambda v_u v_d = Except.ok factors) :
    ∃ res : BoundsResult,
      arithmetic_asian_bounds_cpp S0 K r u d lambda v_u v_d n = Except.ok res ∧
      res.rho_star = Real.exp ((factors.u_tilde ^ n - factors.d_tilde ^ n) ^ 2 /
        (4 * factors.u_tilde ^ n * factors.d_tilde ^ n)) ∧
      res.EQ_G = ((generate_all_paths n).map (fun path =>
        factors.p_eff ^ path.count 1 *
          (1 - factors.p_eff) ^ (n - path.count 1) *
          (generate_price_path S0 path factors.u_tilde factors.d_tilde).prod ^
            ((n : ℝ) + 1)⁻¹)).sum ∧
      res.upper_bound = res.lower_bound +
        r ^ (-(n : ℤ)) * (res.rho_star - 1) * res.EQ_G := by
  have hu : 0 < u := hd.trans hdu
  have hut : 0 < factors.u_tilde := effective_u_tilde_pos hfac hu
  have hdt : 0 < factors.d_tilde := effective_d_tilde_pos hfac hd
  have hrun : arithmetic_asian_bounds_cpp S0 K r u d lambda v_u v_d n =
      Except.ok
        ⟨((generate_all_paths n).map (fun path =>
            factors.p_eff ^ path.count 1 *
              (1 - factors.p_eff) ^ (n - path.count 1) *
              max 0 (gmVal S0 factors.u_tilde factors.d_tilde path - K))).sum *
          r ^ (-(n : ℤ)),
        ((generate_all_paths n).map (fun path =>
            factors.p_eff ^ path.count 1 *
              (1 - factors.p_eff) ^ (n - path.count 1) *
              max 0 (gmVal S0 factors.u_tilde factors.d_tilde path - K))).sum *
          r ^ (-(n : ℤ)) +
          r ^ (-(n : ℤ)) *
            (Real.exp ((factors.u_tilde ^ n - factors.d_tilde ^ n) ^ 2 /
              (4 * factors.u_tilde ^ n * factors.d_tilde ^ n)) - 1) *
            ((generate_all_paths n).map (fun path =>
              factors.p_eff ^ path.count 1 *
                (1 - factors.p_eff) ^ (n - path.count 1) *
                gmVal S0 factors.u_tilde factors.d_tilde path)).sum,
        Real.exp ((factors.u_tilde ^ n - factors.d_tilde ^ n) ^ 2 /
          (4 * factors.u_tilde ^ n * factors.d_tilde ^ n)),
        ((generate_all_paths n).map (fun path =>
          factors.p_eff ^ path.count 1 *
            (1 - factors.p_eff) ^ (n - path.count 1) *
            gmVal S0 factors.u_tilde factors.d_tilde path)).sum,
        ((generate_all_paths n).map (fun path =>
            factors.p_eff ^ path.count 1 *
              (1 - factors.p_eff) ^ (n - path.count 1) *
              max 0 (gmVal S0 factors.u_tilde factors.d_tilde path - K))).sum *
          r ^ (-(n : ℤ))⟩ := by
    simp only [arithmetic_asian_bounds_cpp, hfac, ok_bind]
    rw [bounds_fold K factors.p_eff n hS0 hut hdt (generate_all_paths n) 0 0]
    simp only [ok_bind, pure_eq_ok, zero_add]
  refine ⟨_, hrun, rfl, ?_, rfl⟩
  refine congrArg List.sum ?_
  refine List.map_congr_left (fun path hpath => ?_)
  rw [gmVal_eq_rpow hS0 hut hdt, generate_all_paths_mem_length hpath]

theorem arithmetic_asian_bounds_spec_witness :
    ∃ res : BoundsResult,
      arithmetic_asian_bounds_cpp 1 1 1 2 (1/2) 0 0 0 1 = Except.ok res ∧
      res.rho_star = Real.exp (((2 : ℝ) ^ 1 - (1/2 : ℝ) ^ 1) ^ 2 /
        (4 * (2 : ℝ) ^ 1 * (1/2 : ℝ) ^ 1)) ∧
      res.EQ_G = ((generate_all_paths 1).map (fun path =>
        (1/3 : ℝ) ^ path.count 1 * (1 - (1/3 : ℝ)) ^ (1 - path.count 1) *
          (generate_price_path 1 path 2 (1/2)).prod ^
            (((1 : ℕ) : ℝ) + 1)⁻¹)).sum ∧
      res.upper_bound = res.lower_bound +
        (1 : ℝ) ^ (-((1 : ℕ) : ℤ)) * (res.rho_star - 1) * res.EQ_G :=
  arithmetic_asian_bounds_spec 1 1 1 2 (1/2) 0 0 0 1 ⟨2, 1/2, 1/3⟩
    (by norm_num) (by norm_num) (by norm_num) (by norm_num) (by norm_num)
    le_rfl le_rfl le_rfl
    (by rw [compute_effective_factors_eq]; norm_num [Real.exp_zero])

/-! ## Claim C8 -/

/-- C8: with `n = 0` both entry points degenerate to the immediate payoff:
the pricer returns exactly `max(0, S0-K)`, and the bounds estimator returns
coinciding bounds equal to `max(0, S0-K)` with `rho_star = 1`. -/
theorem n_zero_edge (S0 K r u d lambda v_u v_d : ℝ) (factors : EffectiveFactors)
    (hS0 : 0 < S0) (hK : 0 < K) (hr : 0 < r) (hd : 0 < d) (hdu : d < u)
    (hlam : 0 ≤ lambda) (hvu : 0 ≤ v_u) (hvd : 0 ≤ v_d)
    (hfac : compute_effective_factors r u d lambda v_u v_d = Except.ok factors) :
    price_geometric_asian_cpp S0 K r u d lambda v_u v_d 0 =
        Except.ok (max 0 (S0 - K)) ∧
    ∃ res : BoundsResult,
      arithmetic_asian_bounds_cpp S0 K r u d lambda v_u v_d 0 = Except.ok res ∧
        res.lower_bound = max 0 (S0 - K) ∧
        res.upper_bound = max 0 (S0 - K) ∧ res.rho_star = 1 := by
  have hu : 0 < u := hd.trans hdu
  have hut : 0 < factors.u_tilde := effective_u_tilde_pos hfac hu
  have hdt : 0 < factors.d_tilde := effective_d_tilde_pos hfac hd
  have hstep0 : generate_all_paths 0 = [[]] := rfl
  have hgm0 : gmVal S0 factors.u_tilde factors.d_tilde [] = S0 := by
    simp [gmVal, generate_price_path, generate_price_path_loop,
      Real.exp_log hS0]
  have hrun : arithmetic_asian_bounds_cpp S0 K r u d lambda v_u v_d 0 =
      Except.ok ⟨max 0 (S0 - K), max 0 (S0 - K), 1, S0, max 0 (S0 - K)⟩ := by
    simp only [arithmetic_asian_bounds_cpp, hfac, ok_bind]
    rw [hstep0, bounds_fold K factors.p_eff 0 hS0 hut hdt [[]] 0 0]
    simp [hgm0]
  constructor
  · simp only [price_geometric_asian_cpp, adjusted_eq_effective_map, hfac,
      except_map_ok, ok_bind]
    rw [hstep0, geo_fold K factors.p_eff 0 hS0 hut hdt [[]] 0]
    simp [hgm0]
  · exact ⟨_, hrun, rfl, rfl, rfl⟩

/-- Concrete instantiation of the `n = 0` edge case. -/
theorem n_zero_edge_witness :
    price_geometric_asian_cpp 2 1 1 2 (1/2) 0 0 0 0 =
        Except.ok (max 0 ((2 : ℝ) - 1)) ∧
    ∃ res : BoundsResult,
      arithmetic_asian_bounds_cpp 2 1 1 2 (1/2) 0 0 0 0 = Except.ok res ∧
        res.lower_bound = max 0 ((2 : ℝ) - 1) ∧
        res.upper_bound = max 0 ((2 : ℝ) - 1) ∧ res.rho_star = 1 :=
  n_zero_edge 2 1 1 2 (1/2) 0 0 0 ⟨2, 1/2, 1/3⟩
    (by norm_num) (by norm_num) (by norm_num) (by norm_num) (by norm_num)
    le_rfl le_rfl le_rfl
    (by rw [compute_effective_factors_eq]; norm_num [Real.exp_zero])

/-! ## Claim C3 -/

/-- C3: whenever both entry points succeed on the same nine arguments, the
`lower_bound` field of the bounds estimator equals the scalar returned by
the geometric pricer, and the `V0_G` field always equals `lower_bound`. -/
theorem bounds_lower_eq_geometric_price (S0 K r u d lambda v_u v_d : ℝ)
    (n : ℕ) (res : BoundsResult) (price : ℝ)
    (hb : arithmetic_asian_bounds_cpp S0 K r u d lambda v_u v_d n =
      Except.ok res)
    (hp : price_geometric_asian_cpp S0 K r u d lambda v_u v_d n =
      Except.ok price) :
    res.lower_bound = price ∧ res.V0_G = res.lower_bound := by
  cases heff : compute_effective_factors r u d lambda v_u v_d with
  | error e =>
    simp [arithmetic_asian_bounds_cpp, heff] at hb
  | ok f =>
    simp only [arithmetic_asian_bounds_cpp, heff, ok_bind] at hb
    simp only [price_geometric_asian_cpp, adjusted_eq_effective_map, heff,
      except_map_ok, ok_bind] at hp
    rw [← bounds_fold_fst S0 K f.p_eff f.u_tilde f.d_tilde n
      (generate_all_paths n) 0 0] at hp
    obtain ⟨acc, hm, hres, hprice⟩ := bind_ok_pair _ _ _ _ _ hb hp
    rw [hres, hprice]
    exact ⟨rfl, rfl⟩

theorem bounds_lower_eq_geometric_price_witness :
    (⟨1, 1, 1, 2, 1⟩ : BoundsResult).lower_bound = 1 ∧
    (⟨1, 1, 1, 2, 1⟩ : BoundsResult).V0_G =
      (⟨1, 1, 1, 2, 1⟩ : BoundsResult).lower_bound := by
  have hfacE : compute_effective_factors 1 2 (1/2) 0 0 0 =
      Except.ok ⟨2, 1/2, 1/3⟩ := by
    rw [compute_effective_factors_eq]; norm_num [Real.exp_zero]
  have hfacA : compute_adjusted_factors 1 2 (1/2) 0 0 0 =
      Except.ok ⟨2, 1/2, 1/3⟩ := by
    rw [compute_adjusted_factors_eq]; norm_num [Real.exp_zero]
  have hgm : geometric_mean [(2 : ℝ)] = Except.ok 2 := by
    rw [geometric_mean_pos_ok (by simp) (by norm_num)]
    norm_num [Real.exp_log]
  have hpath : generate_price_path 2 [] 2 (1/2) = [(2 : ℝ)] := rfl
  refine bounds_lower_eq_geometric_price 2 1 1 2 (1/2) 0 0 0 0
    ⟨1, 1, 1, 2, 1⟩ 1 ?_ ?_
  · simp only [arithmetic_asian_bounds_cpp, hfacE, ok_bind]
    rw [show generate_all_paths 0 = [[]] from rfl, List.foldlM_cons]
    simp only [hpath, hgm, ok_bind, pure_bind, List.foldlM_nil]
    norm_num [Real.exp_zero]
  · simp only [price_geometric_asian_cpp, hfacA, ok_bind]
    rw [show generate_all_paths 0 = [[]] from rfl, List.foldlM_cons]
    simp only [hpath, hgm, ok_bind, pure_bind, List.foldlM_nil]
    norm_num

end AsianOptPI
